import Mathlib

/-
  Verification development for the overlap-ingestion core (src/src/overlaps.rs):
  parsing, validation, deduplication and boundary extension of pairwise
  read-overlap records.

  Modelling conventions:
  * Rust u32 values are modelled as Nat.  Rust u32 subtraction is an error on
    underflow; we model it by a checked subtraction returning Option Nat
    (none = arithmetic underflow, which aborts the surrounding operation).
    Additions in the extender cannot overflow u32 whenever the corresponding
    checked subtractions succeed (the sum is bounded by a read length), so
    plain Nat addition is faithful there.
  * The f64 ratio gate of is_valid_overlap is modelled over Rat.  For all
    u32-ranged inputs with positive denominator this is exact: any rational
    dt/dq with dq < 2^32 either equals 9/10 (resp. 1111/1000) exactly or
    differs from it by at least 1/(10 * 2^32) > 2.4e-11, while the f64
    rounding error of the division and of the literals 0.9 and 1.111 is
    below 3e-16, so the f64 comparisons and the exact rational comparisons
    decide identically.  The zero-denominator cases follow IEEE 754:
    x/0 = +inf for x > 0 (rejected by the upper bound) and 0/0 = NaN
    (both comparisons false, hence not rejected by the gate).
-/

/-- Orientation of the target read relative to the query (overlaps.rs:17). -/
inductive Strand : Type
  | Forward : Strand
  | Reverse : Strand
deriving DecidableEq

/-- Modelled from the spec: CigarOp is an opaque alignment-operation payload
owned by the out-of-scope alignment module (src/aligners is not part of this
repository snapshot); it is carried but never inspected by this core, so it is
modelled as an abstract placeholder. -/
abbrev CigarOp : Type := Nat

/-- One pairwise alignment between two reads (overlaps.rs:34). -/
structure Overlap : Type where
  qid : Nat
  qlen : Nat
  qstart : Nat
  qend : Nat
  strand : Strand
  tid : Nat
  tlen : Nat
  tstart : Nat
  tend : Nat
  cigar : Option (List CigarOp)
deriving DecidableEq

/-- Checked u32 subtraction: none models the Rust arithmetic-underflow error. -/
def checkedSub (a b : Nat) : Option Nat :=
  if b ≤ a then some (a - b) else none

/-- Fixed tolerance for containment and extension (overlaps.rs:14). -/
def OL_THRESHOLD : Nat := 2500

/-- The ratio gate of overlaps.rs:194-197: true means the candidate is
rejected.  Models the f64 comparisons ratio < 0.9 and ratio > 1.111 exactly
for u32-ranged inputs (see the header comment) by cross-multiplication: for
dq > 0, dt/dq < 9/10 iff 10*dt < 9*dq and dt/dq > 1111/1000 iff
1000*dt > 1111*dq (proved as ratioRejects_rat below); the dq = 0 branches
follow IEEE division by zero. -/
def ratioRejects (dt dq : Nat) : Bool :=
  if dq = 0 then decide (dt ≠ 0)
  else decide (10 * dt < 9 * dq) || decide (1000 * dt > 1111 * dq)

/-- Tail of is_valid_overlap (overlaps.rs:213-223) after strand normalisation:
the short-circuiting prefix-overlap and suffix-overlap checks, with qs and qe
the (possibly strand-normalised) query coordinates.  The subtractions
qlen - qe and tlen - tend are evaluated only when the two leading conjuncts
hold, mirroring Rust's short-circuit of the boolean and-operator. -/
def overlapTailChecks (qlen tlen tstart tend qs qe : Nat) : Option Bool :=
  match (if OL_THRESHOLD < qs ∧ tstart ≤ OL_THRESHOLD then
           (checkedSub qlen qe).map (fun x => decide (x ≤ OL_THRESHOLD))
         else some false) with
  | none => none
  | some true => some true
  | some false =>
    if OL_THRESHOLD < tstart ∧ qs ≤ OL_THRESHOLD then
      (checkedSub tlen tend).map (fun x => decide (x ≤ OL_THRESHOLD))
    else some false

/-- is_valid_overlap (overlaps.rs:185-224), with checked u32 subtraction:
none models an aborting arithmetic underflow. -/
def is_valid_overlap (qlen qstart qend : Nat) (strand : Strand)
    (tlen tstart tend : Nat) : Option Bool :=
  match checkedSub tend tstart with
  | none => none
  | some dt =>
  match checkedSub qend qstart with
  | none => none
  | some dq =>
  if ratioRejects dt dq then some false
  else
  match checkedSub qlen dq with
  | none => none
  | some qrem =>
  if qrem ≤ OL_THRESHOLD then some true
  else
  match checkedSub tlen dt with
  | none => none
  | some trem =>
  if trem ≤ OL_THRESHOLD then some true
  else
  match strand with
  | Strand.Forward => overlapTailChecks qlen tlen tstart tend qstart qend
  | Strand.Reverse =>
    match checkedSub qlen qend with
    | none => none
    | some a =>
      match checkedSub qlen qstart with
      | none => none
      | some b => overlapTailChecks qlen tlen tstart tend a b

/-- One iteration of extend_overlaps (overlaps.rs:244-262) on a single record,
with checked u32 subtraction for the slack computations; the begin-side
subtractions on tstart and qstart never underflow because the extension
amounts are clamped by those very coordinates. -/
def extend_overlap1 (o : Overlap) : Option Overlap :=
  match o.strand with
  | Strand.Forward =>
    let beginning := Nat.min (Nat.min o.tstart o.qstart) 2500
    match checkedSub o.tlen o.tend with
    | none => none
    | some tslack =>
      match checkedSub o.qlen o.qend with
      | none => none
      | some qslack =>
        let e := Nat.min (Nat.min tslack qslack) 2500
        some { o with tstart := o.tstart - beginning,
                      qstart := o.qstart - beginning,
                      tend := o.tend + e,
                      qend := o.qend + e }
  | Strand.Reverse =>
    match checkedSub o.qlen o.qend with
    | none => none
    | some qslack =>
      let beginning := Nat.min (Nat.min o.tstart qslack) 2500
      match checkedSub o.tlen o.tend with
      | none => none
      | some tslack =>
        let e := Nat.min (Nat.min tslack o.qstart) 2500
        some { o with tstart := o.tstart - beginning,
                      qend := o.qend + beginning,
                      tend := o.tend + e,
                      qstart := o.qstart - e }

/-- extend_overlaps (overlaps.rs:226-263): the per-record extension applied to
every element of the collection; none models an aborting underflow. -/
def extend_overlaps : List Overlap → Option (List Overlap)
  | [] => some []
  | o :: rest =>
    match extend_overlap1 o with
    | none => none
    | some o1 =>
      match extend_overlaps rest with
      | none => none
      | some rest1 => some (o1 :: rest1)

/-- target_overlap_length (overlaps.rs:73-75). -/
def target_overlap_length (o : Overlap) : Nat := o.tend - o.tstart

/-- BufRead::read_line on a character stream: returns the chunk read (up to
and including the first newline, or the whole remainder if none) and the
unread rest.  An empty chunk means end of input (overlaps.rs:107). -/
def readLine : List Char → List Char × List Char
  | [] => ([], [])
  | c :: cs =>
    if c = '\n' then ([c], cs)
    else
      let r := readLine cs
      (c :: r.1, r.2)

/-- str::split on the tab character, as used in overlaps.rs:112: splitting the
empty string yields one empty field, and adjacent separators yield empty
fields. -/
def splitTab : List Char → List (List Char)
  | [] => [[]]
  | c :: cs =>
    if c = '\t' then [] :: splitTab cs
    else
      match splitTab cs with
      | [] => [[c]]
      | f :: rest => (c :: f) :: rest

/-- Value of a decimal digit string (no validity check). -/
def digitsToNat (l : List Char) : Nat :=
  l.foldl (fun a c => 10 * a + (c.toNat - 48)) 0

/-- u32::from_str as used by parse().unwrap() in overlaps.rs:118-134: an
optional leading plus sign, then a nonempty run of decimal digits whose value
fits in u32; anything else is a fatal parse error (none). -/
def parse_u32 (l : List Char) : Option Nat :=
  let ds := match l with
    | '+' :: rest => rest
    | _ => l
  if ds ≠ [] ∧ ds.all Char.isDigit ∧ digitsToNat ds < 4294967296 then
    some (digitsToNat ds)
  else none

/-- The external read-name registry (name_to_id in overlaps.rs:100), modelled
as an association list with first-match lookup. -/
def lookupName (reg : List (List Char × Nat)) (s : List Char) : Option Nat :=
  match reg with
  | [] => none
  | (k, v) :: rest => if k = s then some v else lookupName rest s

/-- Outcome of processing one line slice (overlaps.rs:112-134): a fatal
unwrap/panic, a soft skip on an unknown read name (which, in the source, jumps
back to the loop head before the buffer is cleared), or the nine parsed
fields. -/
inductive LineRes : Type
  | fatal : LineRes
  | skipDirty : LineRes
  | parsed (qid qlen qstart qend : Nat) (strand : Strand)
      (tid tlen tstart tend : Nat) : LineRes

/-- Field extraction of one line (overlaps.rs:112-134): nine leading
tab-separated fields, in order; a missing field or malformed number is fatal
(iterator unwrap or parse unwrap panics), an unknown read name soft-skips. -/
def processLine (reg : List (List Char × Nat)) (slice : List Char) : LineRes :=
  let fields := splitTab slice
  match fields[0]? with
  | none => LineRes.fatal
  | some f0 =>
  match lookupName reg f0 with
  | none => LineRes.skipDirty
  | some qid =>
  match fields[1]? with
  | none => LineRes.fatal
  | some f1 =>
  match parse_u32 f1 with
  | none => LineRes.fatal
  | some qlen =>
  match fields[2]? with
  | none => LineRes.fatal
  | some f2 =>
  match parse_u32 f2 with
  | none => LineRes.fatal
  | some qstart =>
  match fields[3]? with
  | none => LineRes.fatal
  | some f3 =>
  match parse_u32 f3 with
  | none => LineRes.fatal
  | some qend =>
  match fields[4]? with
  | none => LineRes.fatal
  | some f4 =>
  match (if f4 = ['+'] then some Strand.Forward
         else if f4 = ['-'] then some Strand.Reverse
         else none) with
  | none => LineRes.fatal
  | some strand =>
  match fields[5]? with
  | none => LineRes.fatal
  | some f5 =>
  match lookupName reg f5 with
  | none => LineRes.skipDirty
  | some tid =>
  match fields[6]? with
  | none => LineRes.fatal
  | some f6 =>
  match parse_u32 f6 with
  | none => LineRes.fatal
  | some tlen =>
  match fields[7]? with
  | none => LineRes.fatal
  | some f7 =>
  match parse_u32 f7 with
  | none => LineRes.fatal
  | some tstart =>
  match fields[8]? with
  | none => LineRes.fatal
  | some f8 =>
  match parse_u32 f8 with
  | none => LineRes.fatal
  | some tend =>
    LineRes.parsed qid qlen qstart qend strand tid tlen tstart tend

/-- The line loop of parse_paf (overlaps.rs:107-151).  State: the unread
input, the reused line buffer (cleared only at overlaps.rs:136, after name
resolution and numeric parsing), the dedup set of processed ordered pairs and
the accumulated records.  The line slice is buffer[0 .. len-1] where len is
the byte count of the chunk just read, exactly as in overlaps.rs:112.  The
fuel argument is an upper bound on the number of loop iterations (each
iteration consumes at least one input character), added only to make the
recursion structural; parse_paf supplies a sufficient amount. -/
def parseLoop (reg : List (List Char × Nat)) :
    Nat → List Char → List Char → List (Nat × Nat) → List Overlap →
    Option (List Overlap)
  | 0, _, _, _, _ => none
  | fuel + 1, rest, buffer, processed, acc =>
    let chunk := (readLine rest).1
    let rest' := (readLine rest).2
    if chunk.length = 0 then some acc
    else
      let buf := buffer ++ chunk
      let slice := buf.take (chunk.length - 1)
      match processLine reg slice with
      | LineRes.fatal => none
      | LineRes.skipDirty => parseLoop reg fuel rest' buf processed acc
      | LineRes.parsed qid qlen qstart qend strand tid tlen tstart tend =>
        if tid = qid then parseLoop reg fuel rest' [] processed acc
        else if (qid, tid) ∈ processed then parseLoop reg fuel rest' [] processed acc
        else
          match is_valid_overlap qlen qstart qend strand tlen tstart tend with
          | none => none
          | some true =>
            parseLoop reg fuel rest' [] ((qid, tid) :: processed)
              (acc ++ [Overlap.mk qid qlen qstart qend strand tid tlen tstart tend none])
          | some false =>
            parseLoop reg fuel rest' [] ((qid, tid) :: processed) acc

/-- parse_paf (overlaps.rs:100-157): run the line loop on the whole input with
empty initial state; none models a fatal panic (malformed number, bad strand
character, missing field, or u32 underflow inside the validator). -/
def parse_paf (reg : List (List Char × Nat)) (file : List Char) :
    Option (List Overlap) :=
  parseLoop reg (file.length + 1) file [] [] []

/-- Ordered pair of read ids of the record at index i, if in range
(overlaps.rs:164). -/
def pairAt (ovs : List Overlap) (i : Nat) : Option (Nat × Nat) :=
  ovs[i]?.map (fun o => (o.qid, o.tid))

/-- Sort key of the record at index i: its target aligned span
(overlaps.rs:175). -/
def keyAt (ovs : List Overlap) (i : Nat) : Nat :=
  match ovs[i]? with
  | some o => target_overlap_length o
  | none => 0

/-- Indices of the overlaps whose ordered id pair is p, in increasing order:
the per-pair index vector of overlaps.rs:162-167. -/
def groupFor (ovs : List Overlap) (p : Nat × Nat) : List Nat :=
  (List.range ovs.length).filter (fun i => pairAt ovs i = some p)

/-- Iterator::max_by_key over a list of indices, following its documented
behaviour: among indices of equally maximal key, the last one is returned
(overlaps.rs:173-176). -/
def maxByKeyLast (key : Nat → Nat) : List Nat → Option Nat
  | [] => none
  | x :: xs =>
    match maxByKeyLast key xs with
    | none => some x
    | some m => if key m < key x then some x else some m

/-- find_primary_overlaps (overlaps.rs:160-183): group record indices by the
ordered id pair as stored in each record and keep, per pair, the single index
chosen at overlaps.rs:171-177; the result is the kept index set. -/
def find_primary_overlaps (ovs : List Overlap) : List Nat :=
  ((ovs.map (fun o => (o.qid, o.tid))).dedup).filterMap (fun p =>
    match groupFor ovs p with
    | [i] => some i
    | g => maxByKeyLast (keyAt ovs) g)

/-- Coordinate sanity invariant of the data model (spec section 3):
start ≤ end ≤ len on each read. -/
def inBounds (o : Overlap) : Prop :=
  o.qstart ≤ o.qend ∧ o.qend ≤ o.qlen ∧ o.tstart ≤ o.tend ∧ o.tend ≤ o.tlen

instance (o : Overlap) : Decidable (inBounds o) := by
  unfold inBounds; infer_instance

theorem checkedSub_eq_some {a b : Nat} (h : b ≤ a) :
    checkedSub a b = some (a - b) := by
  simp [checkedSub, h]

/-- Explicit value of the extender on a forward-strand record whose end
coordinates are within the read lengths. -/
theorem extend_overlap1_fwd (o : Overlap) (hs : o.strand = Strand.Forward)
    (h1 : o.tend ≤ o.tlen) (h2 : o.qend ≤ o.qlen) :
    extend_overlap1 o =
      some { o with
        tstart := o.tstart - Nat.min (Nat.min o.tstart o.qstart) 2500,
        qstart := o.qstart - Nat.min (Nat.min o.tstart o.qstart) 2500,
        tend := o.tend + Nat.min (Nat.min (o.tlen - o.tend) (o.qlen - o.qend)) 2500,
        qend := o.qend + Nat.min (Nat.min (o.tlen - o.tend) (o.qlen - o.qend)) 2500 } := by
  simp [extend_overlap1, hs, checkedSub_eq_some h1, checkedSub_eq_some h2]

/-- Explicit value of the extender on a reverse-strand record whose end
coordinates are within the read lengths. -/
theorem extend_overlap1_rev (o : Overlap) (hs : o.strand = Strand.Reverse)
    (h1 : o.tend ≤ o.tlen) (h2 : o.qend ≤ o.qlen) :
    extend_overlap1 o =
      some { o with
        tstart := o.tstart - Nat.min (Nat.min o.tstart (o.qlen - o.qend)) 2500,
        qend := o.qend + Nat.min (Nat.min o.tstart (o.qlen - o.qend)) 2500,
        tend := o.tend + Nat.min (Nat.min (o.tlen - o.tend) o.qstart) 2500,
        qstart := o.qstart - Nat.min (Nat.min (o.tlen - o.tend) o.qstart) 2500 } := by
  simp [extend_overlap1, hs, checkedSub_eq_some h1, checkedSub_eq_some h2]

theorem extend_overlaps_getElem :
    ∀ (ovs ovs' : List Overlap), extend_overlaps ovs = some ovs' →
      ovs'.length = ovs.length ∧
      ∀ i : Nat, ovs'[i]? = (ovs[i]?).bind extend_overlap1
  | [], ovs', h => by
    simp [extend_overlaps] at h
    subst h
    exact ⟨rfl, fun i => by simp⟩
  | o :: rest, ovs', h => by
    simp only [extend_overlaps] at h
    cases h1 : extend_overlap1 o with
    | none => rw [h1] at h; exact absurd h (by simp)
    | some o1 =>
      rw [h1] at h
      cases h2 : extend_overlaps rest with
      | none => rw [h2] at h; exact absurd h (by simp)
      | some rest1 =>
        rw [h2] at h
        simp only [Option.some.injEq] at h
        subst h
        obtain ⟨hlen, hget⟩ := extend_overlaps_getElem rest rest1 h2
        refine ⟨by simp [hlen], fun i => ?_⟩
        cases i with
        | zero => simp [h1]
        | succ n => simp [hget n]

/-- C2: the Extender updates exactly the four coordinate fields — on Forward
strand subtracting b = min(tstart, qstart, 2500) from tstart and qstart and
adding e = min(tlen − tend, qlen − qend, 2500) to tend and qend, on Reverse
strand subtracting b = min(tstart, qlen − qend, 2500) from tstart while adding
it to qend and adding e = min(tlen − tend, qstart, 2500) to tend while
subtracting it from qstart — leaves qid, qlen, tid, tlen, strand and cigar
unchanged, and each record's update in the collection pass depends only on
that record's own fields. -/
theorem C2_extender_field_updates :
    (∀ o o' : Overlap, extend_overlap1 o = some o' →
      (o'.qid = o.qid ∧ o'.qlen = o.qlen ∧ o'.tid = o.tid ∧ o'.tlen = o.tlen ∧
       o'.strand = o.strand ∧ o'.cigar = o.cigar) ∧
      (o.strand = Strand.Forward →
        o'.tstart = o.tstart - Nat.min (Nat.min o.tstart o.qstart) 2500 ∧
        o'.qstart = o.qstart - Nat.min (Nat.min o.tstart o.qstart) 2500 ∧
        o'.tend = o.tend + Nat.min (Nat.min (o.tlen - o.tend) (o.qlen - o.qend)) 2500 ∧
        o'.qend = o.qend + Nat.min (Nat.min (o.tlen - o.tend) (o.qlen - o.qend)) 2500) ∧
      (o.strand = Strand.Reverse →
        o'.tstart = o.tstart - Nat.min (Nat.min o.tstart (o.qlen - o.qend)) 2500 ∧
        o'.qend = o.qend + Nat.min (Nat.min o.tstart (o.qlen - o.qend)) 2500 ∧
        o'.tend = o.tend + Nat.min (Nat.min (o.tlen - o.tend) o.qstart) 2500 ∧
        o'.qstart = o.qstart - Nat.min (Nat.min (o.tlen - o.tend) o.qstart) 2500)) ∧
    (∀ ovs ovs' : List Overlap, extend_overlaps ovs = some ovs' →
      ovs'.length = ovs.length ∧
      ∀ i : Nat, ovs'[i]? = (ovs[i]?).bind extend_overlap1) := by
  refine ⟨fun o o' h => ?_, extend_overlaps_getElem⟩
  cases hs : o.strand with
  | Forward =>
    rw [extend_overlap1] at h
    rw [hs] at h
    simp only [checkedSub] at h
    by_cases h1 : o.tend ≤ o.tlen
    · by_cases h2 : o.qend ≤ o.qlen
      · simp only [h1, h2, if_pos] at h
        simp only [Option.some.injEq] at h
        subst h
        simp [hs]
      · simp [h1, h2] at h
    · simp [h1] at h
  | Reverse =>
    rw [extend_overlap1] at h
    rw [hs] at h
    simp only [checkedSub] at h
    by_cases h2 : o.qend ≤ o.qlen
    · by_cases h1 : o.tend ≤ o.tlen
      · simp only [h1, h2, if_pos] at h
        simp only [Option.some.injEq] at h
        subst h
        simp [hs]
      · simp [h1, h2] at h
    · simp [h2] at h

/-- Witness for C2 at a concrete record. -/
theorem C2_extender_field_updates_witness :
    extend_overlaps [Overlap.mk 0 10000 100 9900 Strand.Forward 1 10000 50 9850 none] =
      some [Overlap.mk 0 10000 50 10000 Strand.Forward 1 10000 0 9950 none] ∧
    ([Overlap.mk 0 10000 50 10000 Strand.Forward 1 10000 0 9950 none] : List Overlap)[0]? =
      (([Overlap.mk 0 10000 100 9900 Strand.Forward 1 10000 50 9850 none] : List Overlap)[0]?).bind
        extend_overlap1 := by
  have h : extend_overlaps [Overlap.mk 0 10000 100 9900 Strand.Forward 1 10000 50 9850 none] =
      some [Overlap.mk 0 10000 50 10000 Strand.Forward 1 10000 0 9950 none] := by decide
  exact ⟨h, (C2_extender_field_updates.2 _ _ h).2 0⟩

theorem min3_le_left (x y c : Nat) : Nat.min (Nat.min x y) c ≤ x :=
  Nat.le_trans (Nat.min_le_left _ _) (Nat.min_le_left _ _)

theorem min3_le_mid (x y c : Nat) : Nat.min (Nat.min x y) c ≤ y :=
  Nat.le_trans (Nat.min_le_left _ _) (Nat.min_le_right _ _)

theorem min3_le_cap (x y c : Nat) : Nat.min (Nat.min x y) c ≤ c :=
  Nat.min_le_right _ _

/-- Key arithmetic fact behind idempotence: if the clamped amount
min(x, y, c) was limited by x or y rather than by the cap c, then after
subtracting it from both x and y the next clamped amount is zero. -/
theorem min3_self_zero {x y c : Nat} (h : Nat.min x y ≤ c) :
    Nat.min (Nat.min (x - Nat.min (Nat.min x y) c) (y - Nat.min (Nat.min x y) c)) c = 0 := by
  simp only [Nat.min_def] at h ⊢
  split_ifs at h ⊢ <;> omega

/-- C3: on a record satisfying the coordinate sanity invariant the Extender
succeeds, the result still satisfies 0 ≤ qstart ≤ qend ≤ qlen and
0 ≤ tstart ≤ tend ≤ tlen, every coordinate changes by at most 2500, and the
aligned spans only widen: the starts do not increase and the ends do not
decrease. -/
theorem C3_extension_bounds (o : Overlap) (h : inBounds o) :
    ∃ o', extend_overlap1 o = some o' ∧ inBounds o' ∧
      o'.qstart ≤ o.qstart ∧ o'.tstart ≤ o.tstart ∧
      o.qend ≤ o'.qend ∧ o.tend ≤ o'.tend ∧
      o.qstart - o'.qstart ≤ 2500 ∧ o.tstart - o'.tstart ≤ 2500 ∧
      o'.qend - o.qend ≤ 2500 ∧ o'.tend - o.tend ≤ 2500 := by
  obtain ⟨hq1, hq2, ht1, ht2⟩ := h
  cases hs : o.strand with
  | Forward =>
    refine ⟨_, extend_overlap1_fwd o hs ht2 hq2, ?_⟩
    unfold inBounds
    simp only
    have b1 := min3_le_left o.tstart o.qstart 2500
    have b2 := min3_le_mid o.tstart o.qstart 2500
    have b3 := min3_le_cap o.tstart o.qstart 2500
    have e1 := min3_le_left (o.tlen - o.tend) (o.qlen - o.qend) 2500
    have e2 := min3_le_mid (o.tlen - o.tend) (o.qlen - o.qend) 2500
    have e3 := min3_le_cap (o.tlen - o.tend) (o.qlen - o.qend) 2500
    refine ⟨⟨?_, ?_, ?_, ?_⟩, ?_, ?_, ?_, ?_, ?_, ?_, ?_, ?_⟩ <;> omega
  | Reverse =>
    refine ⟨_, extend_overlap1_rev o hs ht2 hq2, ?_⟩
    unfold inBounds
    simp only
    have b1 := min3_le_left o.tstart (o.qlen - o.qend) 2500
    have b2 := min3_le_mid o.tstart (o.qlen - o.qend) 2500
    have b3 := min3_le_cap o.tstart (o.qlen - o.qend) 2500
    have e1 := min3_le_left (o.tlen - o.tend) o.qstart 2500
    have e2 := min3_le_mid (o.tlen - o.tend) o.qstart 2500
    have e3 := min3_le_cap (o.tlen - o.tend) o.qstart 2500
    refine ⟨⟨?_, ?_, ?_, ?_⟩, ?_, ?_, ?_, ?_, ?_, ?_, ?_, ?_⟩ <;> omega

/-- Witness for C3 at a concrete record. -/
theorem C3_extension_bounds_witness :
    inBounds (Overlap.mk 0 10000 100 9900 Strand.Reverse 1 10000 50 9850 none) ∧
    ∃ o', extend_overlap1 (Overlap.mk 0 10000 100 9900 Strand.Reverse 1 10000 50 9850 none) = some o' ∧
      inBounds o' ∧
      o'.qstart ≤ 100 ∧ o'.tstart ≤ 50 ∧ 9900 ≤ o'.qend ∧ 9850 ≤ o'.tend ∧
      100 - o'.qstart ≤ 2500 ∧ 50 - o'.tstart ≤ 2500 ∧
      o'.qend - 9900 ≤ 2500 ∧ o'.tend - 9850 ≤ 2500 :=
  ⟨by decide, C3_extension_bounds _ (by decide)⟩

/-- Condition of C7: on each side the first extension pass was limited by a
coordinate reaching 0 or the read length, not by the 2500 cap. -/
def extensionHitsBounds (o : Overlap) : Prop :=
  match o.strand with
  | Strand.Forward =>
    Nat.min o.tstart o.qstart ≤ 2500 ∧
    Nat.min (o.tlen - o.tend) (o.qlen - o.qend) ≤ 2500
  | Strand.Reverse =>
    Nat.min o.tstart (o.qlen - o.qend) ≤ 2500 ∧
    Nat.min (o.tlen - o.tend) o.qstart ≤ 2500

instance (o : Overlap) : Decidable (extensionHitsBounds o) := by
  unfold extensionHitsBounds
  cases o.strand <;> dsimp only <;> infer_instance

/-- C7: once both extension amounts were limited by a coordinate bound rather
than by the cap, a second run of the Extender changes no field. -/
theorem C7_extender_idempotent (o o' : Overlap) (h : inBounds o)
    (hlim : extensionHitsBounds o) (he : extend_overlap1 o = some o') :
    extend_overlap1 o' = some o' := by
  obtain ⟨qid, qlen, qstart, qend, strand, tid, tlen, tstart, tend, cigar⟩ := o
  simp only [inBounds] at h
  obtain ⟨hq1, hq2, ht1, ht2⟩ := h
  cases strand with
  | Forward =>
    simp only [extensionHitsBounds] at hlim
    obtain ⟨hb, hee⟩ := hlim
    rw [extend_overlap1_fwd _ rfl ht2 hq2] at he
    simp only [Option.some.injEq] at he
    subst he
    have hA : tend + Nat.min (Nat.min (tlen - tend) (qlen - qend)) 2500 ≤ tlen := by
      have := min3_le_left (tlen - tend) (qlen - qend) 2500
      omega
    have hB : qend + Nat.min (Nat.min (tlen - tend) (qlen - qend)) 2500 ≤ qlen := by
      have := min3_le_mid (tlen - tend) (qlen - qend) 2500
      omega
    rw [extend_overlap1_fwd _ rfl hA hB]
    dsimp only
    rw [Nat.sub_add_eq, Nat.sub_add_eq]
    rw [min3_self_zero hb, min3_self_zero hee]
    rfl
  | Reverse =>
    simp only [extensionHitsBounds] at hlim
    obtain ⟨hb, hee⟩ := hlim
    rw [extend_overlap1_rev _ rfl ht2 hq2] at he
    simp only [Option.some.injEq] at he
    subst he
    have hA : tend + Nat.min (Nat.min (tlen - tend) qstart) 2500 ≤ tlen := by
      have := min3_le_left (tlen - tend) qstart 2500
      omega
    have hB : qend + Nat.min (Nat.min tstart (qlen - qend)) 2500 ≤ qlen := by
      have := min3_le_mid tstart (qlen - qend) 2500
      omega
    rw [extend_overlap1_rev _ rfl hA hB]
    dsimp only
    rw [Nat.sub_add_eq, Nat.sub_add_eq]
    rw [min3_self_zero hb, min3_self_zero hee]
    rfl

/-- Witness for C7 at a concrete record. -/
theorem C7_extender_idempotent_witness :
    extend_overlap1 (Overlap.mk 0 10000 50 10000 Strand.Forward 1 10000 0 9950 none) =
      some (Overlap.mk 0 10000 50 10000 Strand.Forward 1 10000 0 9950 none) :=
  C7_extender_idempotent
    (Overlap.mk 0 10000 100 9900 Strand.Forward 1 10000 50 9850 none)
    (Overlap.mk 0 10000 50 10000 Strand.Forward 1 10000 0 9950 none)
    (by decide) (by decide) (by decide)

/-- C9: the Extender grows the query aligned span and the target aligned span
by exactly the same amount b + e on both strands, so the difference of the two
spans is invariant under extension. -/
theorem C9_span_growth (o o' : Overlap) (h : inBounds o)
    (he : extend_overlap1 o = some o') :
    ∃ g : Nat,
      (o.strand = Strand.Forward →
        g = Nat.min (Nat.min o.tstart o.qstart) 2500 +
            Nat.min (Nat.min (o.tlen - o.tend) (o.qlen - o.qend)) 2500) ∧
      (o.strand = Strand.Reverse →
        g = Nat.min (Nat.min o.tstart (o.qlen - o.qend)) 2500 +
            Nat.min (Nat.min (o.tlen - o.tend) o.qstart) 2500) ∧
      o'.qend - o'.qstart = (o.qend - o.qstart) + g ∧
      o'.tend - o'.tstart = (o.tend - o.tstart) + g ∧
      ((o'.tend : ℤ) - (o'.tstart : ℤ)) - ((o'.qend : ℤ) - (o'.qstart : ℤ)) =
        ((o.tend : ℤ) - (o.tstart : ℤ)) - ((o.qend : ℤ) - (o.qstart : ℤ)) := by
  obtain ⟨qid, qlen, qstart, qend, strand, tid, tlen, tstart, tend, cigar⟩ := o
  simp only [inBounds] at h
  obtain ⟨hq1, hq2, ht1, ht2⟩ := h
  cases strand with
  | Forward =>
    rw [extend_overlap1_fwd _ rfl ht2 hq2] at he
    simp only [Option.some.injEq] at he
    subst he
    have b1 := min3_le_left tstart qstart 2500
    have b2 := min3_le_mid tstart qstart 2500
    have e1 := min3_le_left (tlen - tend) (qlen - qend) 2500
    have e2 := min3_le_mid (tlen - tend) (qlen - qend) 2500
    refine ⟨_, fun _ => rfl, fun hc => by exact absurd hc (by simp), ?_, ?_, ?_⟩ <;>
      dsimp only <;> omega
  | Reverse =>
    rw [extend_overlap1_rev _ rfl ht2 hq2] at he
    simp only [Option.some.injEq] at he
    subst he
    have b1 := min3_le_left tstart (qlen - qend) 2500
    have b2 := min3_le_mid tstart (qlen - qend) 2500
    have e1 := min3_le_left (tlen - tend) qstart 2500
    have e2 := min3_le_mid (tlen - tend) qstart 2500
    refine ⟨_, fun hc => by exact absurd hc (by simp), fun _ => rfl, ?_, ?_, ?_⟩ <;>
      dsimp only <;> omega

/-- Witness for C9 at a concrete record. -/
theorem C9_span_growth_witness :
    ∃ g : Nat,
      (Overlap.mk 0 10000 0 9950 Strand.Reverse 1 10000 0 9950 none).qend -
        (Overlap.mk 0 10000 0 9950 Strand.Reverse 1 10000 0 9950 none).qstart =
          (9900 - 100) + g ∧
      (Overlap.mk 0 10000 0 9950 Strand.Reverse 1 10000 0 9950 none).tend -
        (Overlap.mk 0 10000 0 9950 Strand.Reverse 1 10000 0 9950 none).tstart =
          (9850 - 50) + g := by
  obtain ⟨g, _, _, h3, h4, _⟩ := C9_span_growth
    (Overlap.mk 0 10000 100 9900 Strand.Reverse 1 10000 50 9850 none)
    (Overlap.mk 0 10000 0 9950 Strand.Reverse 1 10000 0 9950 none)
    (by decide) (by decide)
  exact ⟨g, h3, h4⟩


/-- Validator following the words of C1 (spec section 4.2): compute
ratio = (tend − tstart) / (qend − qstart) and reject iff ratio < 0.9 or
ratio > 1.111 (a ratio exactly equal to a bound passes); then accept on query
containment, target containment, or — after replacing (qstart, qend) by
(qlen − qend, qlen − qstart) on Reverse strand — on the prefix-overlap or
suffix-overlap condition, each threshold comparison accepting at 2500 and
rejecting at 2501. -/
def validatorSpec (qlen qstart qend : Nat) (strand : Strand)
    (tlen tstart tend : Nat) : Bool :=
  let dt := tend - tstart
  let dq := qend - qstart
  if (dt : ℚ) / (dq : ℚ) < 9 / 10 ∨ (dt : ℚ) / (dq : ℚ) > 1111 / 1000 then false
  else if qlen - (qend - qstart) ≤ 2500 then true
  else if tlen - (tend - tstart) ≤ 2500 then true
  else
    let qs := match strand with
      | Strand.Forward => qstart
      | Strand.Reverse => qlen - qend
    let qe := match strand with
      | Strand.Forward => qend
      | Strand.Reverse => qlen - qstart
    if 2500 < qs ∧ tstart ≤ 2500 ∧ qlen - qe ≤ 2500 then true
    else if 2500 < tstart ∧ qs ≤ 2500 ∧ tlen - tend ≤ 2500 then true
    else false

/-- Bridge between the cross-multiplied ratio gate and the rational-division
comparisons of the claim. -/
theorem ratioRejects_rat (dt dq : Nat) (h : 0 < dq) :
    ratioRejects dt dq =
      (decide ((dt : ℚ) / (dq : ℚ) < 9 / 10) ||
       decide ((dt : ℚ) / (dq : ℚ) > 1111 / 1000)) := by
  have hdq : (0 : ℚ) < (dq : ℚ) := by exact_mod_cast h
  have h1 : ((dt : ℚ) / (dq : ℚ) < 9 / 10) ↔ 10 * dt < 9 * dq := by
    rw [div_lt_div_iff hdq (by norm_num : (0 : ℚ) < 10)]
    rw [mul_comm ((dt : ℚ)) 10]
    exact_mod_cast Iff.rfl
  have h2 : ((dt : ℚ) / (dq : ℚ) > 1111 / 1000) ↔ 1000 * dt > 1111 * dq := by
    rw [gt_iff_lt, div_lt_div_iff (by norm_num : (0 : ℚ) < 1000) hdq]
    rw [mul_comm ((dt : ℚ)) 1000]
    exact_mod_cast Iff.rfl
  unfold ratioRejects
  rw [if_neg (by omega : ¬ dq = 0)]
  rw [decide_eq_decide.mpr h1, decide_eq_decide.mpr h2]

theorem overlapTailChecks_eq (qlen tlen tstart tend qs qe : Nat)
    (h1 : qe ≤ qlen) (h2 : tend ≤ tlen) :
    overlapTailChecks qlen tlen tstart tend qs qe =
      some (if 2500 < qs ∧ tstart ≤ 2500 ∧ qlen - qe ≤ 2500 then true
            else if 2500 < tstart ∧ qs ≤ 2500 ∧ tlen - tend ≤ 2500 then true
            else false) := by
  unfold overlapTailChecks OL_THRESHOLD
  rw [checkedSub_eq_some h1, checkedSub_eq_some h2]
  by_cases hA : 2500 < qs ∧ tstart ≤ 2500
  · obtain ⟨hA1, hA2⟩ := hA
    by_cases hC : qlen - qe ≤ 2500
    · simp [hA1, hA2, hC]
    · have hq2500 : ¬(qs ≤ 2500) := by omega
      simp [hA1, hA2, hC, hq2500]
  · have hA' : ¬(2500 < qs ∧ tstart ≤ 2500 ∧ qlen - qe ≤ 2500) :=
      fun hx => hA ⟨hx.1, hx.2.1⟩
    rw [if_neg hA]
    by_cases hD : 2500 < tstart ∧ qs ≤ 2500
    · obtain ⟨hD1, hD2⟩ := hD
      by_cases hE : tlen - tend ≤ 2500
      · simp [hA', hD1, hD2, hE]
      · simp [hA', hD1, hD2, hE]
    · have hD' : ¬(2500 < tstart ∧ qs ≤ 2500 ∧ tlen - tend ≤ 2500) :=
        fun hx => hD ⟨hx.1, hx.2.1⟩
      rw [if_neg hD]
      dsimp only
      rw [if_neg hA', if_neg hD']

/-- C1: on inputs satisfying the coordinate sanity invariant and with a
nonempty query span (so that the ratio is a well-defined positive-denominator
fraction), the source validator succeeds and decides exactly as the decision
procedure stated in the claim. -/
theorem C1_validator_matches_spec (qlen qstart qend : Nat) (strand : Strand)
    (tlen tstart tend : Nat)
    (h0 : qstart < qend) (hq : qend ≤ qlen) (ht : tstart ≤ tend)
    (htl : tend ≤ tlen) :
    is_valid_overlap qlen qstart qend strand tlen tstart tend =
      some (validatorSpec qlen qstart qend strand tlen tstart tend) := by
  have hdt := checkedSub_eq_some ht
  have hdq := checkedSub_eq_some (Nat.le_of_lt h0)
  have hqq : qend - qstart ≤ qlen := by omega
  have htt : tend - tstart ≤ tlen := by omega
  have hql : qstart ≤ qlen := by omega
  unfold is_valid_overlap validatorSpec OL_THRESHOLD
  rw [hdt, hdq]
  dsimp only
  rw [ratioRejects_rat (tend - tstart) (qend - qstart) (by omega)]
  rw [checkedSub_eq_some hqq, checkedSub_eq_some htt]
  simp only [Bool.or_eq_true, decide_eq_true_eq]
  by_cases hr : (((tend - tstart : Nat) : ℚ) / ((qend - qstart : Nat) : ℚ) < 9 / 10 ∨
      ((tend - tstart : Nat) : ℚ) / ((qend - qstart : Nat) : ℚ) > 1111 / 1000)
  · rw [if_pos hr, if_pos hr]
  · rw [if_neg hr, if_neg hr]
    by_cases h1 : qlen - (qend - qstart) ≤ 2500
    · rw [if_pos h1, if_pos h1]
    · rw [if_neg h1, if_neg h1]
      by_cases h2 : tlen - (tend - tstart) ≤ 2500
      · rw [if_pos h2, if_pos h2]
      · rw [if_neg h2, if_neg h2]
        cases strand
        · dsimp only
          rw [overlapTailChecks_eq _ _ _ _ _ _ hq htl]
        · dsimp only
          rw [checkedSub_eq_some hq]
          dsimp only
          rw [checkedSub_eq_some hql]
          dsimp only
          rw [overlapTailChecks_eq _ _ _ _ _ _ (Nat.sub_le _ _) htl]

/-- Witness for C1 at a concrete input. -/
theorem C1_validator_matches_spec_witness :
    (0 : Nat) < 10000 ∧
    is_valid_overlap 10000 0 10000 Strand.Forward 10000 0 9000 =
      some (validatorSpec 10000 0 10000 Strand.Forward 10000 0 9000) :=
  ⟨Nat.zero_lt_succ _,
   C1_validator_matches_spec 10000 0 10000 Strand.Forward 10000 0 9000
     (by decide) (by decide) (by decide) (by decide)⟩

theorem checkedSub_isSome (a b : Nat) : (checkedSub a b).isSome = true ↔ b ≤ a := by
  by_cases h : b ≤ a <;> simp [checkedSub, h]

theorem bind_checkedSub_isSome (a b c : Nat) :
    ((checkedSub b c).bind (checkedSub a)).isSome = true ↔ c ≤ b ∧ b - c ≤ a := by
  by_cases h : c ≤ b
  · rw [checkedSub_eq_some h, Option.some_bind]
    rw [checkedSub_isSome]
    exact ⟨fun hx => ⟨h, hx⟩, fun hx => hx.2⟩
  · simp [checkedSub, h]

/-- C10: the unsigned subtractions of the Validator and the Extender —
qlen − (qend − qstart), tlen − (tend − tstart), qlen − qend and tlen − tend —
are all free of underflow exactly when the coordinate sanity invariant
qstart ≤ qend ≤ qlen and tstart ≤ tend ≤ tlen holds; and the Parser applies
no such guard: the line a 5 0 10 + b 100 0 10, whose qend = 10 exceeds
qlen = 5, passes name resolution, numeric parsing and the self/duplicate
checks and reaches the validator subtraction unguarded, aborting the whole
parse, just as the Extender aborts on the corresponding record. -/
theorem C10_underflow_iff_invariant :
    (∀ qlen qstart qend tlen tstart tend : Nat,
      (((checkedSub qend qstart).bind (checkedSub qlen)).isSome ∧
       ((checkedSub tend tstart).bind (checkedSub tlen)).isSome ∧
       (checkedSub qlen qend).isSome ∧ (checkedSub tlen tend).isSome) ↔
      (qstart ≤ qend ∧ qend ≤ qlen ∧ tstart ≤ tend ∧ tend ≤ tlen)) ∧
    parse_paf [("a".data, 0), ("b".data, 1)] "a\t5\t0\t10\t+\tb\t100\t0\t10\n".data = none ∧
    extend_overlap1 (Overlap.mk 0 5 0 10 Strand.Forward 1 100 0 10 none) = none := by
  refine ⟨fun qlen qstart qend tlen tstart tend => ?_, by decide, by decide⟩
  rw [show (((checkedSub qend qstart).bind (checkedSub qlen)).isSome : Prop) =
      ((((checkedSub qend qstart).bind (checkedSub qlen)).isSome : Bool) = true) from rfl]
  rw [bind_checkedSub_isSome, bind_checkedSub_isSome, checkedSub_isSome, checkedSub_isSome]
  omega

/-- C5 (code bug): the line buffer is cleared only after name resolution
(overlaps.rs:136), so the unknown-name skip at overlaps.rs:114-117 leaves the
previous line in the buffer; the next iteration then slices stale content
(overlaps.rs:112), and a perfectly valid subsequent line produces no record.
Here the unknown-name line z ... followed by the valid line a ... b yields no
records at all, while the valid line alone yields its record. -/
theorem C5_unknown_name_skip_corrupts_later_lines :
    parse_paf [("a".data, 0), ("b".data, 1)]
        ("z\t5\t0\t5\t+\ta\t5\t0\t5\n".data ++ "a\t100\t0\t100\t+\tb\t100\t0\t100\n".data) =
      some [] ∧
    parse_paf [("a".data, 0), ("b".data, 1)] "a\t100\t0\t100\t+\tb\t100\t0\t100\n".data =
      some [Overlap.mk 0 100 0 100 Strand.Forward 1 100 0 100 none] := by
  exact ⟨by decide, by decide⟩

/-- Counterexample to C6: a nine-field final line with no terminator loses
the last character of its tend field (the slice buffer[0 .. len-1] strips a
data character), so it does not yield the same record as the terminated line:
here tend parses as 10 instead of 100, the ratio gate rejects, and no record
is produced. -/
theorem C6_counterexample_last_char_stripped :
    parse_paf [("a".data, 0), ("b".data, 1)]
        "a\t100\t0\t100\t+\tb\t100\t0\t100".data = some [] ∧
    parse_paf [("a".data, 0), ("b".data, 1)]
        "a\t100\t0\t100\t+\tb\t100\t0\t100\n".data =
      some [Overlap.mk 0 100 0 100 Strand.Forward 1 100 0 100 none] := by
  exact ⟨by decide, by decide⟩

theorem readLine_no_newline (s : List Char) (h : '\n' ∉ s) :
    readLine s = (s, []) := by
  induction s with
  | nil => rfl
  | cons c cs ih =>
    have hc : ¬(c = '\n') := fun hcc => h (hcc ▸ List.mem_cons_self c cs)
    have hcs : '\n' ∉ cs := fun hm => h (List.mem_cons_of_mem c hm)
    simp only [readLine, if_neg hc, ih hcs]

theorem readLine_append_newline (pre suf : List Char) (h : '\n' ∉ pre) :
    readLine (pre ++ '\n' :: suf) = (pre ++ ['\n'], suf) := by
  induction pre with
  | nil => simp [readLine]
  | cons c cs ih =>
    have hc : ¬(c = '\n') := fun hcc => h (hcc ▸ List.mem_cons_self c cs)
    have hcs : '\n' ∉ cs := fun hm => h (List.mem_cons_of_mem c hm)
    simp only [List.cons_append, readLine, if_neg hc, List.append_eq, ih hcs]

theorem parseLoop_nil (reg : List (List Char × Nat)) (fuel : Nat)
    (buffer : List Char) (processed : List (Nat × Nat)) (acc : List Overlap) :
    parseLoop reg fuel [] buffer processed acc =
      if fuel = 0 then none else some acc := by
  cases fuel with
  | zero => rfl
  | succ f => simp [parseLoop, readLine]

theorem take_dropLast_append (l : List Char) (m : Nat) (hm : m ≤ l.length - 1) :
    (l.dropLast ++ ['\n']).take m = l.take m := by
  rw [List.take_append_of_le_length (by rw [List.length_dropLast]; exact hm)]
  rw [List.dropLast_eq_take, List.take_take]
  rw [Nat.min_eq_left hm]

/-- C6 as amended: the Parser processes every line after stripping exactly one
trailing character, whether or not that character is a terminator.  A final
line without a terminator is therefore parsed exactly like the same line with
its last character replaced by a terminator — from any loop state and for the
whole parse.  (It yields the same record as the terminated full line only when
the stripped character lies beyond the nine leading fields.) -/
theorem C6_amended_strips_one_trailing_char
    (reg : List (List Char × Nat)) (line : List Char)
    (hnl : '\n' ∉ line) (hne : line ≠ []) :
    (∀ fuel buffer processed acc,
      parseLoop reg fuel line buffer processed acc =
        parseLoop reg fuel (line.dropLast ++ ['\n']) buffer processed acc) ∧
    parse_paf reg line = parse_paf reg (line.dropLast ++ ['\n']) := by
  have hn1 : 1 ≤ line.length := by
    cases line with
    | nil => exact absurd rfl hne
    | cons c cs => simp
  have hd : '\n' ∉ line.dropLast := fun hm => hnl (List.dropLast_subset line hm)
  have hlen : (line.dropLast ++ ['\n']).length = line.length := by
    rw [List.length_append, List.length_dropLast]
    simp only [List.length_cons, List.length_nil]
    omega
  have hmain : ∀ fuel buffer processed acc,
      parseLoop reg fuel line buffer processed acc =
        parseLoop reg fuel (line.dropLast ++ ['\n']) buffer processed acc := by
    intro fuel buffer processed acc
    cases fuel with
    | zero => rfl
    | succ f =>
      simp only [parseLoop]
      rw [readLine_no_newline line hnl, readLine_append_newline line.dropLast [] hd]
      dsimp only
      rw [hlen]
      have hnz : ¬ line.length = 0 := by omega
      rw [if_neg hnz, if_neg hnz]
      have hslice : (buffer ++ (line.dropLast ++ ['\n'])).take (line.length - 1) =
          (buffer ++ line).take (line.length - 1) := by
        rw [← List.append_assoc]
        rw [← List.dropLast_append_of_ne_nil buffer hne]
        refine take_dropLast_append (buffer ++ line) (line.length - 1) ?_
        rw [List.length_append]
        omega
      rw [hslice]
      cases hp : processLine reg ((buffer ++ line).take (line.length - 1)) with
      | fatal => rfl
      | skipDirty =>
        dsimp only
        rw [parseLoop_nil, parseLoop_nil]
      | parsed qid qlen qstart qend strand tid tlen tstart tend => rfl
  refine ⟨hmain, ?_⟩
  unfold parse_paf
  rw [hlen]
  exact hmain (line.length + 1) [] [] []

/-- Witness for the amended C6 at a concrete unterminated line. -/
theorem C6_amended_strips_one_trailing_char_witness :
    parse_paf [("a".data, 0), ("b".data, 1)]
        "a\t100\t0\t100\t+\tb\t100\t0\t100".data =
      parse_paf [("a".data, 0), ("b".data, 1)]
        (("a\t100\t0\t100\t+\tb\t100\t0\t100".data).dropLast ++ ['\n']) :=
  (C6_amended_strips_one_trailing_char [("a".data, 0), ("b".data, 1)]
    "a\t100\t0\t100\t+\tb\t100\t0\t100".data (by decide) (by decide)).2

/-- Loop invariant of the dedup set (overlaps.rs:142-145): every record in the
accumulator has its ordered pair registered in the processed set, a record is
pushed only when its pair is not yet registered, so the output never holds two
records with the same ordered (qid, tid) pair. -/
theorem parseLoop_pairwise (reg : List (List Char × Nat)) (fuel : Nat) :
    ∀ (rest buffer : List Char) (processed : List (Nat × Nat)) (acc : List Overlap),
      (∀ o ∈ acc, (o.qid, o.tid) ∈ processed) →
      acc.Pairwise (fun a b => (a.qid, a.tid) ≠ (b.qid, b.tid)) →
      ∀ ovs, parseLoop reg fuel rest buffer processed acc = some ovs →
        ovs.Pairwise (fun a b => (a.qid, a.tid) ≠ (b.qid, b.tid)) := by
  induction fuel with
  | zero =>
    intro rest buffer processed acc _ _ ovs h
    exact absurd h (by simp [parseLoop])
  | succ f ih =>
    intro rest buffer processed acc hmem hpw ovs h
    simp only [parseLoop] at h
    by_cases hc : ((readLine rest).1).length = 0
    · rw [if_pos hc] at h
      simp only [Option.some.injEq] at h
      subst h
      exact hpw
    · rw [if_neg hc] at h
      cases hps : processLine reg
          ((buffer ++ (readLine rest).1).take (((readLine rest).1).length - 1)) with
      | fatal =>
        rw [hps] at h
        exact Option.noConfusion h
      | skipDirty =>
        rw [hps] at h
        exact ih _ _ _ _ hmem hpw ovs h
      | parsed qid qlen qstart qend strand tid tlen tstart tend =>
        rw [hps] at h
        dsimp only at h
        by_cases hself : tid = qid
        · rw [if_pos hself] at h
          exact ih _ _ _ _ hmem hpw ovs h
        · rw [if_neg hself] at h
          by_cases hdup : (qid, tid) ∈ processed
          · rw [if_pos hdup] at h
            exact ih _ _ _ _ hmem hpw ovs h
          · rw [if_neg hdup] at h
            cases hv : is_valid_overlap qlen qstart qend strand tlen tstart tend with
            | none =>
              rw [hv] at h
              exact Option.noConfusion h
            | some b =>
              rw [hv] at h
              cases b with
              | true =>
                dsimp only at h
                refine ih _ _ _ _ ?_ ?_ ovs h
                · intro o ho
                  rcases List.mem_append.mp ho with ho1 | ho2
                  · exact List.mem_cons_of_mem _ (hmem o ho1)
                  · have ho2' : o = Overlap.mk qid qlen qstart qend strand tid tlen
                        tstart tend none := by simpa using ho2
                    subst ho2'
                    exact List.mem_cons_self _ _
                · rw [List.pairwise_append]
                  refine ⟨hpw, List.pairwise_singleton _ _, ?_⟩
                  intro a ha b hb
                  have hb' : b = Overlap.mk qid qlen qstart qend strand tid tlen
                      tstart tend none := by simpa using hb
                  subst hb'
                  intro heq
                  have hin : (a.qid, a.tid) ∈ processed := hmem a ha
                  rw [heq] at hin
                  exact hdup hin
              | false =>
                dsimp only at h
                refine ih _ _ _ _ ?_ hpw ovs h
                intro o ho
                exact List.mem_cons_of_mem _ (hmem o ho)

/-- The ordered id pair a line outcome resolves to after the earlier checks:
none for a fatal or skipped outcome and for a self-overlap
(overlaps.rs:137-140), the exact ordered pair (qid, tid) otherwise. -/
def lineResPair : LineRes → Option (Nat × Nat)
  | LineRes.parsed qid _ _ _ _ tid _ _ _ =>
    if tid = qid then none else some (qid, tid)
  | _ => none

/-- The candidate record a parsed line outcome would materialise
(overlaps.rs:148). -/
def recordOf : LineRes → Option Overlap
  | LineRes.parsed qid qlen qstart qend strand tid tlen tstart tend =>
    some (Overlap.mk qid qlen qstart qend strand tid tlen tstart tend none)
  | _ => none

/-- The validator verdict on a parsed line outcome (overlaps.rs:147). -/
def validOutcome : LineRes → Option Bool
  | LineRes.parsed _ qlen qstart qend strand _ tlen tstart tend =>
    is_valid_overlap qlen qstart qend strand tlen tstart tend
  | _ => none

/-- First outcome of the list resolving to the ordered pair p. -/
def firstFor : List LineRes → (Nat × Nat) → Option LineRes
  | [], _ => none
  | r :: rest, p => if lineResPair r = some p then some r else firstFor rest p

/-- The sequence of per-iteration line outcomes of the parse loop, in
processing order: the same readLine, buffer bookkeeping and processLine steps
as parseLoop (overlaps.rs:107-134), recording each iteration's outcome
instead of acting on it.  Fuel exhaustion is recorded as a fatal outcome so
that parseLoop = dedupFold of the outcomes holds for every fuel. -/
def lineOutcomes (reg : List (List Char × Nat)) :
    Nat → List Char → List Char → List LineRes
  | 0, _, _ => [LineRes.fatal]
  | fuel + 1, rest, buffer =>
    let chunk := (readLine rest).1
    let rest' := (readLine rest).2
    if chunk.length = 0 then []
    else
      let buf := buffer ++ chunk
      let slice := buf.take (chunk.length - 1)
      match processLine reg slice with
      | LineRes.fatal => [LineRes.fatal]
      | LineRes.skipDirty => LineRes.skipDirty :: lineOutcomes reg fuel rest' buf
      | LineRes.parsed qid qlen qstart qend strand tid tlen tstart tend =>
        LineRes.parsed qid qlen qstart qend strand tid tlen tstart tend ::
          lineOutcomes reg fuel rest' []

/-- The line outcomes the parser processes on a whole file. -/
def parsedLineOutcomes (reg : List (List Char × Nat)) (file : List Char) :
    List LineRes :=
  lineOutcomes reg (file.length + 1) file []

/-- The per-line dedup, validate and materialise logic of parse_paf
(overlaps.rs:136-150), factored out of the line loop as a pure fold over the
line outcomes: a self-overlap or an already-seen ordered pair is skipped,
otherwise the ordered pair is registered and the validator decides whether a
record is pushed. -/
def dedupFold : List LineRes → List (Nat × Nat) → List Overlap →
    Option (List Overlap)
  | [], _, acc => some acc
  | LineRes.fatal :: _, _, _ => none
  | LineRes.skipDirty :: rest, processed, acc => dedupFold rest processed acc
  | LineRes.parsed qid qlen qstart qend strand tid tlen tstart tend :: rest,
      processed, acc =>
    if tid = qid then dedupFold rest processed acc
    else if (qid, tid) ∈ processed then dedupFold rest processed acc
    else
      match is_valid_overlap qlen qstart qend strand tlen tstart tend with
      | none => none
      | some true =>
        dedupFold rest ((qid, tid) :: processed)
          (acc ++ [Overlap.mk qid qlen qstart qend strand tid tlen tstart tend none])
      | some false => dedupFold rest ((qid, tid) :: processed) acc

/-- The parse loop is exactly the dedup fold applied to its line outcomes. -/
theorem parseLoop_eq_dedupFold (reg : List (List Char × Nat)) (fuel : Nat) :
    ∀ (rest buffer : List Char) (processed : List (Nat × Nat))
      (acc : List Overlap),
      parseLoop reg fuel rest buffer processed acc =
        dedupFold (lineOutcomes reg fuel rest buffer) processed acc := by
  induction fuel with
  | zero => intro rest buffer processed acc; rfl
  | succ f ih =>
    intro rest buffer processed acc
    simp only [parseLoop, lineOutcomes]
    by_cases hc : ((readLine rest).1).length = 0
    · rw [if_pos hc, if_pos hc]
      rfl
    · rw [if_neg hc, if_neg hc]
      cases hps : processLine reg
          ((buffer ++ (readLine rest).1).take (((readLine rest).1).length - 1)) with
      | fatal => rfl
      | skipDirty =>
        dsimp only
        exact ih _ _ _ _
      | parsed qid qlen qstart qend strand tid tlen tstart tend =>
        dsimp only
        simp only [dedupFold]
        by_cases hself : tid = qid
        · rw [if_pos hself, if_pos hself]
          exact ih _ _ _ _
        · rw [if_neg hself, if_neg hself]
          by_cases hdup : (qid, tid) ∈ processed
          · rw [if_pos hdup, if_pos hdup]
            exact ih _ _ _ _
          · rw [if_neg hdup, if_neg hdup]
            cases hv : is_valid_overlap qlen qstart qend strand tlen tstart tend with
            | none => rfl
            | some b =>
              cases b with
              | true => exact ih _ _ _ _
              | false => exact ih _ _ _ _

theorem dedupFold_acc_subset :
    ∀ (L : List LineRes) (processed : List (Nat × Nat)) (acc ovs : List Overlap),
      dedupFold L processed acc = some ovs → ∀ o ∈ acc, o ∈ ovs := by
  intro L
  induction L with
  | nil =>
    intro processed acc ovs h o ho
    simp only [dedupFold, Option.some.injEq] at h
    subst h
    exact ho
  | cons head rest ih =>
    intro processed acc ovs h o ho
    cases head with
    | fatal =>
      simp only [dedupFold] at h
      exact Option.noConfusion h
    | skipDirty =>
      simp only [dedupFold] at h
      exact ih _ _ _ h o ho
    | parsed qid qlen qstart qend strand tid tlen tstart tend =>
      simp only [dedupFold] at h
      by_cases hself : tid = qid
      · rw [if_pos hself] at h
        exact ih _ _ _ h o ho
      · rw [if_neg hself] at h
        by_cases hdup : (qid, tid) ∈ processed
        · rw [if_pos hdup] at h
          exact ih _ _ _ h o ho
        · rw [if_neg hdup] at h
          cases hv : is_valid_overlap qlen qstart qend strand tlen tstart tend with
          | none =>
            rw [hv] at h
            exact Option.noConfusion h
          | some b =>
            rw [hv] at h
            cases b with
            | true =>
              dsimp only at h
              exact ih _ _ _ h o (List.mem_append.mpr (Or.inl ho))
            | false =>
              dsimp only at h
              exact ih _ _ _ h o ho

/-- First-line-wins, universally: every record the dedup fold adds is exactly
the candidate record of the first line outcome resolving to its ordered pair,
that outcome is valid, and the pair was not yet registered. -/
theorem dedupFold_sound :
    ∀ (L : List LineRes) (processed : List (Nat × Nat)) (acc ovs : List Overlap),
      dedupFold L processed acc = some ovs →
      ∀ o ∈ ovs, o ∉ acc →
        (o.qid, o.tid) ∉ processed ∧
        ∃ r, firstFor L (o.qid, o.tid) = some r ∧ recordOf r = some o ∧
          validOutcome r = some true := by
  intro L
  induction L with
  | nil =>
    intro processed acc ovs h o ho hno
    simp only [dedupFold, Option.some.injEq] at h
    subst h
    exact absurd ho hno
  | cons head rest ih =>
    intro processed acc ovs h o ho hno
    cases head with
    | fatal =>
      simp only [dedupFold] at h
      exact Option.noConfusion h
    | skipDirty =>
      simp only [dedupFold] at h
      obtain ⟨hp, r', hf, hr, hv⟩ := ih _ _ _ h o ho hno
      refine ⟨hp, r', ?_, hr, hv⟩
      simp only [firstFor, lineResPair]
      simpa using hf
    | parsed qid qlen qstart qend strand tid tlen tstart tend =>
      simp only [dedupFold] at h
      by_cases hself : tid = qid
      · rw [if_pos hself] at h
        obtain ⟨hp, r', hf, hr, hv⟩ := ih _ _ _ h o ho hno
        refine ⟨hp, r', ?_, hr, hv⟩
        simp only [firstFor, lineResPair, if_pos hself]
        simpa using hf
      · rw [if_neg hself] at h
        by_cases hdup : (qid, tid) ∈ processed
        · rw [if_pos hdup] at h
          obtain ⟨hp, r', hf, hr, hv⟩ := ih _ _ _ h o ho hno
          refine ⟨hp, r', ?_, hr, hv⟩
          have hne : ¬(some (qid, tid) = some (o.qid, o.tid)) := by
            simp only [Option.some.injEq]
            intro he
            exact hp (he ▸ hdup)
          simp only [firstFor, lineResPair, if_neg hself]
          rw [if_neg hne]
          exact hf
        · rw [if_neg hdup] at h
          cases hv0 : is_valid_overlap qlen qstart qend strand tlen tstart tend with
          | none =>
            rw [hv0] at h
            exact Option.noConfusion h
          | some b =>
            rw [hv0] at h
            cases b with
            | true =>
              dsimp only at h
              by_cases hacc : o ∈ acc ++
                  [Overlap.mk qid qlen qstart qend strand tid tlen tstart tend none]
              · have ho' : o = Overlap.mk qid qlen qstart qend strand tid tlen
                    tstart tend none := by
                  rcases List.mem_append.mp hacc with h1 | h2
                  · exact absurd h1 hno
                  · simpa using h2
                subst ho'
                refine ⟨hdup,
                  LineRes.parsed qid qlen qstart qend strand tid tlen tstart tend,
                  ?_, rfl, ?_⟩
                · simp [firstFor, lineResPair, hself]
                · simp only [validOutcome]
                  exact hv0
              · obtain ⟨hp, r', hf, hr, hvv⟩ := ih _ _ _ h o ho hacc
                refine ⟨fun hmem => hp (List.mem_cons_of_mem _ hmem), r', ?_, hr, hvv⟩
                have hne : ¬(some (qid, tid) = some (o.qid, o.tid)) := by
                  simp only [Option.some.injEq]
                  intro he
                  exact hp (he ▸ List.mem_cons_self _ _)
                simp only [firstFor, lineResPair, if_neg hself]
                rw [if_neg hne]
                exact hf
            | false =>
              dsimp only at h
              obtain ⟨hp, r', hf, hr, hvv⟩ := ih _ _ _ h o ho hno
              refine ⟨fun hmem => hp (List.mem_cons_of_mem _ hmem), r', ?_, hr, hvv⟩
              have hne : ¬(some (qid, tid) = some (o.qid, o.tid)) := by
                simp only [Option.some.injEq]
                intro he
                exact hp (he ▸ List.mem_cons_self _ _)
              simp only [firstFor, lineResPair, if_neg hself]
              rw [if_neg hne]
              exact hf

/-- Ordered pairs are never deduplicated against other pairs, universally:
every ordered pair that is not yet registered and whose first resolving line
outcome is valid yields its record in the output, whatever other pairs —
including the swapped pair — occur in the input. -/
theorem dedupFold_complete :
    ∀ (L : List LineRes) (processed : List (Nat × Nat)) (acc ovs : List Overlap),
      dedupFold L processed acc = some ovs →
      ∀ p r, p ∉ processed → firstFor L p = some r →
        validOutcome r = some true → ∃ o ∈ ovs, recordOf r = some o := by
  intro L
  induction L with
  | nil =>
    intro processed acc ovs h p r hp hf hv
    exact Option.noConfusion hf
  | cons head rest ih =>
    intro processed acc ovs h p r hp hf hv
    cases head with
    | fatal =>
      simp only [dedupFold] at h
      exact Option.noConfusion h
    | skipDirty =>
      simp only [dedupFold] at h
      simp only [firstFor, lineResPair] at hf
      simp only [reduceCtorEq, if_false] at hf
      exact ih _ _ _ h p r hp hf hv
    | parsed qid qlen qstart qend strand tid tlen tstart tend =>
      simp only [dedupFold] at h
      by_cases hself : tid = qid
      · rw [if_pos hself] at h
        simp only [firstFor, lineResPair, if_pos hself] at hf
        simp only [reduceCtorEq, if_false] at hf
        exact ih _ _ _ h p r hp hf hv
      · rw [if_neg hself] at h
        by_cases hmatch : (qid, tid) = p
        · subst hmatch
          simp [firstFor, lineResPair, hself] at hf
          subst hf
          simp only [validOutcome] at hv
          rw [if_neg hp] at h
          rw [hv] at h
          dsimp only at h
          refine ⟨Overlap.mk qid qlen qstart qend strand tid tlen tstart tend none,
            ?_, rfl⟩
          exact dedupFold_acc_subset _ _ _ _ h _
            (List.mem_append.mpr (Or.inr (List.mem_cons_self _ _)))
        · have hcond : ¬(lineResPair (LineRes.parsed qid qlen qstart qend strand
              tid tlen tstart tend) = some p) := by
            simp only [lineResPair, if_neg hself, Option.some.injEq]
            exact hmatch
          simp only [firstFor] at hf
          rw [if_neg hcond] at hf
          by_cases hdup : (qid, tid) ∈ processed
          · rw [if_pos hdup] at h
            exact ih _ _ _ h p r hp hf hv
          · rw [if_neg hdup] at h
            cases hv0 : is_valid_overlap qlen qstart qend strand tlen tstart tend with
            | none =>
              rw [hv0] at h
              exact Option.noConfusion h
            | some b =>
              rw [hv0] at h
              have hp' : p ∉ (qid, tid) :: processed := by
                intro hmem
                rcases List.mem_cons.mp hmem with h1 | h2
                · exact hmatch h1.symm
                · exact hp h2
              cases b with
              | true =>
                dsimp only at h
                exact ih _ _ _ h p r hp' hf hv
              | false =>
                dsimp only at h
                exact ih _ _ _ h p r hp' hf hv

/-- C4: the Parser deduplicates by the ordered pair (qid, tid) as encountered,
universally: the output never holds two records with the same ordered pair;
every output record is exactly the candidate record of the first line outcome
resolving to its ordered pair (so among lines resolving to the same ordered
pair, only the first produces a record); and every ordered pair whose first
resolving line outcome passes validation yields its record in the output —
in particular a later line resolving to the swapped pair (tid, qid) is keyed
by its own ordered pair and is not deduplicated against (qid, tid). -/
theorem C4_ordered_pair_dedup :
    ∀ (reg : List (List Char × Nat)) (file : List Char) (ovs : List Overlap),
      parse_paf reg file = some ovs →
      ovs.Pairwise (fun a b => (a.qid, a.tid) ≠ (b.qid, b.tid)) ∧
      (∀ o ∈ ovs, ∃ r,
        firstFor (parsedLineOutcomes reg file) (o.qid, o.tid) = some r ∧
        recordOf r = some o ∧ validOutcome r = some true) ∧
      (∀ p r, firstFor (parsedLineOutcomes reg file) p = some r →
        validOutcome r = some true → ∃ o ∈ ovs, recordOf r = some o) := by
  intro reg file ovs h
  have hd : dedupFold (parsedLineOutcomes reg file) [] [] = some ovs := by
    unfold parsedLineOutcomes
    rw [← parseLoop_eq_dedupFold reg (file.length + 1) file [] [] []]
    exact h
  refine ⟨parseLoop_pairwise reg (file.length + 1) file [] [] []
    (by simp) (by simp) ovs h, ?_, ?_⟩
  · intro o ho
    obtain ⟨_, r, hf, hr, hv⟩ := dedupFold_sound _ _ _ _ hd o ho (by simp)
    exact ⟨r, hf, hr, hv⟩
  · intro p r hf hv
    exact dedupFold_complete _ _ _ _ hd p r (by simp) hf hv

/-- Witness for C4 at a concrete three-line input: the record of the swapped
pair (1, 0) exists and stems from the first (and only) outcome resolving to
(1, 0), not deduplicated against the earlier (0, 1) lines. -/
theorem C4_ordered_pair_dedup_witness :
    ∃ r, firstFor (parsedLineOutcomes [("a".data, 0), ("b".data, 1)]
        ("a\t100\t0\t100\t+\tb\t100\t0\t100\n".data ++
         "a\t100\t0\t99\t+\tb\t100\t0\t99\n".data ++
         "b\t100\t0\t100\t+\ta\t100\t0\t100\n".data)) (1, 0) = some r ∧
      recordOf r = some (Overlap.mk 1 100 0 100 Strand.Forward 0 100 0 100 none) ∧
      validOutcome r = some true := by
  obtain ⟨hpw, hsound, hcomp⟩ := C4_ordered_pair_dedup
    [("a".data, 0), ("b".data, 1)]
    ("a\t100\t0\t100\t+\tb\t100\t0\t100\n".data ++
     "a\t100\t0\t99\t+\tb\t100\t0\t99\n".data ++
     "b\t100\t0\t100\t+\ta\t100\t0\t100\n".data)
    [Overlap.mk 0 100 0 100 Strand.Forward 1 100 0 100 none,
     Overlap.mk 1 100 0 100 Strand.Forward 0 100 0 100 none]
    (by decide)
  exact hsound (Overlap.mk 1 100 0 100 Strand.Forward 0 100 0 100 none)
    (by simp)

/-- Counterexample to C8: find_primary_overlaps groups by the ordered pair
(qid, tid) as stored in each record, not by the unordered read pair.  These
two overlaps describe the same unordered pair of reads 1 and 2 with swapped
roles and different target spans (60 and 50), yet both are kept, although the
claim's unordered grouping would keep exactly one. -/
theorem C8_counterexample_ordered_grouping :
    find_primary_overlaps
        [Overlap.mk 1 100 0 50 Strand.Forward 2 100 0 60 none,
         Overlap.mk 2 100 0 50 Strand.Forward 1 100 0 50 none] = [0, 1] ∧
    (Overlap.mk 1 100 0 50 Strand.Forward 2 100 0 60 none).qid =
      (Overlap.mk 2 100 0 50 Strand.Forward 1 100 0 50 none).tid ∧
    (Overlap.mk 1 100 0 50 Strand.Forward 2 100 0 60 none).tid =
      (Overlap.mk 2 100 0 50 Strand.Forward 1 100 0 50 none).qid ∧
    target_overlap_length (Overlap.mk 1 100 0 50 Strand.Forward 2 100 0 60 none) = 60 ∧
    target_overlap_length (Overlap.mk 2 100 0 50 Strand.Forward 1 100 0 50 none) = 50 := by
  decide

theorem groupFor_mem (ovs : List Overlap) (p : Nat × Nat) (j : Nat) :
    j ∈ groupFor ovs p ↔ j < ovs.length ∧ pairAt ovs j = some p := by
  simp [groupFor, List.mem_filter, List.mem_range]

theorem maxByKeyLast_ne_none (key : Nat → Nat) (g : List Nat) (h : g ≠ []) :
    (maxByKeyLast key g).isSome = true := by
  cases g with
  | nil => exact absurd rfl h
  | cons x xs =>
    simp only [maxByKeyLast]
    cases maxByKeyLast key xs with
    | none => simp
    | some m =>
      dsimp only
      split <;> simp

/-- Characterisation of max_by_key on a strictly increasing index list: the
result is a member whose key is maximal, and among equal maximal keys it is
the largest (last-seen) index. -/
theorem maxByKeyLast_spec (key : Nat → Nat) :
    ∀ g : List Nat, g.Pairwise (· < ·) → ∀ k, maxByKeyLast key g = some k →
      k ∈ g ∧ ∀ j ∈ g, key j < key k ∨ (key j = key k ∧ j ≤ k) := by
  intro g
  induction g with
  | nil => intro _ k h; exact Option.noConfusion h
  | cons x xs ih =>
    intro hpw k h
    have hx : ∀ j ∈ xs, x < j := (List.pairwise_cons.mp hpw).1
    have hxs := (List.pairwise_cons.mp hpw).2
    simp only [maxByKeyLast] at h
    cases hm : maxByKeyLast key xs with
    | none =>
      have hxs_nil : xs = [] := by
        cases xs with
        | nil => rfl
        | cons y ys =>
          exfalso
          revert hm
          simp only [maxByKeyLast]
          cases maxByKeyLast key ys with
          | none => simp
          | some m =>
            dsimp only
            split <;> simp
      subst hxs_nil
      simp only [maxByKeyLast] at h
      simp only [Option.some.injEq] at h
      subst h
      refine ⟨List.mem_cons_self _ _, ?_⟩
      intro j hj
      have hjx : j = x := by simpa using hj
      subst hjx
      right
      exact ⟨rfl, Nat.le_refl _⟩
    | some m =>
      rw [hm] at h
      obtain ⟨hm_mem, hm_prop⟩ := ih hxs m hm
      dsimp only at h
      by_cases hc : key m < key x
      · rw [if_pos hc] at h
        simp only [Option.some.injEq] at h
        subst h
        refine ⟨List.mem_cons_self _ _, ?_⟩
        intro j hj
        rcases List.mem_cons.mp hj with hj0 | hj'
        · subst hj0; right; exact ⟨rfl, Nat.le_refl _⟩
        · rcases hm_prop j hj' with h1 | h1
          · left; omega
          · left; omega
      · rw [if_neg hc] at h
        simp only [Option.some.injEq] at h
        subst h
        refine ⟨List.mem_cons_of_mem _ hm_mem, ?_⟩
        intro j hj
        rcases List.mem_cons.mp hj with hj0 | hj'
        · subst hj0
          have hxm := hx m hm_mem
          rcases Nat.lt_or_ge (key j) (key m) with h1 | h1
          · left; exact h1
          · right; exact ⟨by omega, by omega⟩
        · exact hm_prop j hj'

theorem maxLast_unique {key : Nat → Nat} {g : List Nat} {k k' : Nat}
    (hk : k ∈ g) (hk' : k' ∈ g)
    (pk : ∀ j ∈ g, key j < key k ∨ (key j = key k ∧ j ≤ k))
    (pk' : ∀ j ∈ g, key j < key k' ∨ (key j = key k' ∧ j ≤ k')) : k = k' := by
  rcases pk k' hk' with h1 | h1 <;> rcases pk' k hk with h2 | h2 <;> omega

/-- C8 as amended: find_primary_overlaps groups by the ordered pair
(qid, tid) (not the unordered read pair) and keeps, for each ordered pair
present, exactly the overlap with the greatest target aligned span
(tend − tstart), ties resolved in favour of the last-seen overlap; a pair
with a single overlap keeps that overlap.  Stated as a full membership
characterisation: index k is kept iff it is in range and every index j with
the same ordered pair has a smaller key, or an equal key and j ≤ k. -/
theorem C8_amended_primary_selection (ovs : List Overlap) (k : Nat) :
    k ∈ find_primary_overlaps ovs ↔
      (k < ovs.length ∧ ∀ j, j < ovs.length → pairAt ovs j = pairAt ovs k →
        (keyAt ovs j < keyAt ovs k ∨ (keyAt ovs j = keyAt ovs k ∧ j ≤ k))) := by
  have hsorted : ∀ p, (groupFor ovs p).Pairwise (· < ·) :=
    fun p => (List.pairwise_lt_range ovs.length).filter _
  constructor
  · intro hk
    unfold find_primary_overlaps at hk
    rw [List.mem_filterMap] at hk
    obtain ⟨p, hp, hf⟩ := hk
    have hkg : k ∈ groupFor ovs p := by
      cases hg : groupFor ovs p with
      | nil =>
        rw [hg] at hf
        simp [maxByKeyLast] at hf
      | cons i rest =>
        cases rest with
        | nil =>
          rw [hg] at hf
          simp only [Option.some.injEq] at hf
          subst hf
          exact List.mem_cons_self _ _
        | cons i2 rest2 =>
          rw [hg] at hf
          dsimp only at hf
          have hs := hsorted p
          rw [hg] at hs
          exact (maxByKeyLast_spec (keyAt ovs) _ hs k hf).1
    obtain ⟨hklen, hkpair⟩ := (groupFor_mem ovs p k).mp hkg
    refine ⟨hklen, ?_⟩
    intro j hj hjp
    have hjg : j ∈ groupFor ovs p :=
      (groupFor_mem ovs p j).mpr ⟨hj, by rw [hjp, hkpair]⟩
    cases hg : groupFor ovs p with
    | nil =>
      rw [hg] at hjg
      exact absurd hjg (List.not_mem_nil _)
    | cons i rest =>
      cases rest with
      | nil =>
        rw [hg] at hjg hkg
        have hj' : j = i := by simpa using hjg
        have hk' : k = i := by simpa using hkg
        subst hj'
        rw [hk']
        right
        exact ⟨rfl, Nat.le_refl _⟩
      | cons i2 rest2 =>
        rw [hg] at hf hjg
        dsimp only at hf
        have hs := hsorted p
        rw [hg] at hs
        exact (maxByKeyLast_spec (keyAt ovs) _ hs k hf).2 j hjg
  · rintro ⟨hklen, hprop⟩
    obtain ⟨o, ho⟩ : ∃ o, ovs[k]? = some o :=
      ⟨ovs[k], List.getElem?_eq_getElem hklen⟩
    have hpk : pairAt ovs k = some (o.qid, o.tid) := by
      unfold pairAt
      rw [ho]
      rfl
    have hkg : k ∈ groupFor ovs (o.qid, o.tid) :=
      (groupFor_mem ovs _ k).mpr ⟨hklen, hpk⟩
    unfold find_primary_overlaps
    rw [List.mem_filterMap]
    refine ⟨(o.qid, o.tid), ?_, ?_⟩
    · rw [List.mem_dedup]
      exact List.mem_map_of_mem _ (List.getElem?_mem ho)
    · have hgprop : ∀ j ∈ groupFor ovs (o.qid, o.tid),
          keyAt ovs j < keyAt ovs k ∨ (keyAt ovs j = keyAt ovs k ∧ j ≤ k) := by
        intro j hj
        obtain ⟨hjlen, hjpair⟩ := (groupFor_mem ovs _ j).mp hj
        exact hprop j hjlen (by rw [hjpair, hpk])
      cases hg : groupFor ovs (o.qid, o.tid) with
      | nil =>
        rw [hg] at hkg
        exact absurd hkg (List.not_mem_nil _)
      | cons i rest =>
        cases rest with
        | nil =>
          rw [hg] at hkg
          have hk' : k = i := by simpa using hkg
          rw [hk']
        | cons i2 rest2 =>
          have hne : groupFor ovs (o.qid, o.tid) ≠ [] := by rw [hg]; simp
          obtain ⟨k0, hk0⟩ := Option.isSome_iff_exists.mp
            (maxByKeyLast_ne_none (keyAt ovs) _ hne)
          obtain ⟨hk0mem, hk0prop⟩ :=
            maxByKeyLast_spec (keyAt ovs) _ (hsorted _) k0 hk0
          have hkk0 : k0 = k := maxLast_unique hk0mem hkg hk0prop hgprop
          dsimp only
          rw [← hg]
          rw [hkk0] at hk0
          exact hk0

/-- Witness for the amended C8: in a two-overlap group for the ordered pair
(1, 2) with spans 60 and 70, index 1 (greater span) is kept. -/
theorem C8_amended_primary_selection_witness :
    1 ∈ find_primary_overlaps
      [Overlap.mk 1 100 0 50 Strand.Forward 2 100 0 60 none,
       Overlap.mk 1 100 10 50 Strand.Forward 2 100 10 70 none] :=
  (C8_amended_primary_selection
    [Overlap.mk 1 100 0 50 Strand.Forward 2 100 0 60 none,
     Overlap.mk 1 100 10 50 Strand.Forward 2 100 10 70 none] 1).mpr (by decide)
